import Mathlib

/-!
Verification development for the `helix-lsp` client engine.

The document model: a text document is a `List Char` (Rust `char` =
Unicode scalar value = Lean `Char`).  The rope library (`ropey`) used by
the host is an external collaborator; its line/offset primitives
(`char_to_line`, `line_to_char`, `char_to_utf16_cu`, `utf16_cu_to_char`,
`lines().count()`, `line(l).len_chars()`) are modelled below on
`List Char` with ropey's line-break semantics: a line break is `'\n'`,
`'\u000B'`, `'\u000C'`, `'\r'`, `'\u0085'`, LINE SEPARATOR or PARAGRAPH SEPARATOR,
with the pair `"\r\n"` counting as a single break.  Machine integers
(`usize`, `u32`) are modelled as `Nat`; the `checked_add` overflow
returns of the Rust code cannot fire on `Nat` and documents are assumed
smaller than `u32::MAX`, so those paths are elided.
-/

/-- UTF-16 code-unit length of one scalar value (Rust `char::len_utf16`). -/
def lenUtf16 (c : Char) : Nat :=
  if c.val < 0x10000 then 1 else 2

/-- UTF-8 byte length of one scalar value (Rust `char::len_utf8`). -/
def lenUtf8 (c : Char) : Nat :=
  if c.val < 0x80 then 1 else if c.val < 0x800 then 2
  else if c.val < 0x10000 then 3 else 4

/-- UTF-16 code-unit length of a text. -/
def utf16Len (l : List Char) : Nat := (l.map lenUtf16).sum

/-- UTF-8 byte length of a text. -/
def utf8Len (l : List Char) : Nat := (l.map lenUtf8).sum

/-- The characters ropey recognises as line breaks (default features:
`cr_lines`, `unicode_lines`). -/
def isBreakChar (c : Char) : Bool :=
  c = '\n' || c = '\u000B' || c = '\u000C' || c = '\r' ||
  c = '\u0085' || c = '\u2028' || c = '\u2029'

/-- `breakEndsAt doc j` holds when a line break is completed at index `j`:
either `doc[j]` is a break character other than a `'\r'` that is directly
followed by `'\n'` (a `"\r\n"` pair is one break, completed at the `'\n'`). -/
def breakEndsAt (doc : List Char) (j : Nat) : Bool :=
  match doc.get? j with
  | none => false
  | some c =>
    if c = '\r' then !(doc.get? (j + 1) == some '\n')
    else isBreakChar c

/-- Ropey `char_to_line`: the zero-based line of char index `i`
(= number of line breaks completed strictly before `i`). -/
def charToLine (doc : List Char) (i : Nat) : Nat :=
  (List.range i).countP (breakEndsAt doc)

/-- Ropey `lines().count()` (= number of breaks + 1). -/
def lenLines (doc : List Char) : Nat :=
  (List.range doc.length).countP (breakEndsAt doc) + 1

/-- Ropey `line_to_char`: the char index at which line `l` starts
(one past the `l`-th completed break; `doc.length` when past the last line). -/
def lineToChar (doc : List Char) : Nat → Nat
  | 0 => 0
  | l + 1 =>
    match ((List.range doc.length).filter (breakEndsAt doc)).get? l with
    | some j => j + 1
    | none => doc.length

/-- Ropey `line(l).len_chars()`: char length of line `l`, its terminating
break included (the final line has none). -/
def lineLenChars (doc : List Char) (l : Nat) : Nat :=
  lineToChar doc (l + 1) - lineToChar doc l

/-- Ropey `char_to_utf16_cu`: UTF-16 code-unit offset of char index `i`. -/
def charToUtf16Cu (doc : List Char) (i : Nat) : Nat :=
  utf16Len (doc.take i)

/-- Ropey `utf16_cu_to_char`: char index containing UTF-16 offset `cu`. -/
def utf16CuToChar : List Char → Nat → Nat
  | [], _ => 0
  | c :: rest, cu =>
    if cu < lenUtf16 c then 0 else 1 + utf16CuToChar rest (cu - lenUtf16 c)

/-- `lsp::Position`: protocol line/character pair (`u32` fields as `Nat`). -/
structure LspPosition where
  line : Nat
  character : Nat
deriving DecidableEq, Repr

/-- `OffsetEncoding` (src/helix-lsp/src/lib.rs): the negotiated wire
position encoding. -/
inductive OffsetEncoding
  | Utf8
  | Utf16
deriving DecidableEq, Repr

/-- `util::lsp_pos_to_pos` (src/helix-lsp/src/lib.rs): protocol position to
internal char offset; `none` when the line is past the document or the
resolved offset lies past the document end. -/
def lsp_pos_to_pos (doc : List Char) (pos : LspPosition)
    (offset_encoding : OffsetEncoding) : Option Nat :=
  let max_line := lenLines doc - 1
  if pos.line > max_line then none
  else
    match offset_encoding with
    | .Utf8 =>
      let max_char := lineToChar doc max_line + lineLenChars doc max_line
      let line := lineToChar doc pos.line
      let p := line + pos.character
      if p ≤ max_char then some p else none
    | .Utf16 =>
      let max_char := lineToChar doc max_line + lineLenChars doc max_line
      let max_cu := charToUtf16Cu doc max_char
      let line := lineToChar doc pos.line
      let line_start := charToUtf16Cu doc line
      let p := line_start + pos.character
      if p ≤ max_cu then some (utf16CuToChar doc p) else none

/-- `util::pos_to_lsp_pos` (src/helix-lsp/src/lib.rs): internal char offset
to protocol position (total here; the Rust panics out of bounds). -/
def pos_to_lsp_pos (doc : List Char) (pos : Nat)
    (offset_encoding : OffsetEncoding) : LspPosition :=
  match offset_encoding with
  | .Utf8 =>
    let line := charToLine doc pos
    let line_start := lineToChar doc line
    ⟨line, pos - line_start⟩
  | .Utf16 =>
    let line := charToLine doc pos
    let line_start := charToUtf16Cu doc (lineToChar doc line)
    ⟨line, charToUtf16Cu doc pos - line_start⟩

example : lsp_pos_to_pos ['a','b','\n','c','d'] ⟨0, 4⟩ .Utf8 = some 4 := by decide
example : lsp_pos_to_pos [] ⟨0, 0⟩ .Utf8 = some 0 := by decide
example : lsp_pos_to_pos [] ⟨0, 1⟩ .Utf8 = none := by decide
example : lsp_pos_to_pos ['\n','\n'] ⟨1, 1⟩ .Utf16 = some 2 := by decide
example : lsp_pos_to_pos ['\n','\n'] ⟨3, 0⟩ .Utf16 = none := by decide
example :
    lsp_pos_to_pos ['t','e','s','t','\n','\n','\n','\n','c','a','s','e'] ⟨4, 3⟩ .Utf8
      = some 11 := by decide
example :
    lsp_pos_to_pos ['t','e','s','t','\n','\n','\n','\n','c','a','s','e'] ⟨4, 5⟩ .Utf16
      = none := by decide
example : pos_to_lsp_pos ['l','i','n','e','1','\n','l','i','n','e','2'] 8 .Utf8
      = ⟨1, 2⟩ := by decide

/-- `helix_core::Operation`: one edit operation of a `ChangeSet`.  The
ordered list of operations consumes the old document exactly once. -/
inductive Operation
  | retain (n : Nat)
  | delete (n : Nat)
  | insert (s : List Char)
deriving DecidableEq, Repr

/-- `lsp::TextDocumentContentChangeEvent`: one sequential change event.
`range = none` means the whole document is replaced by `text`. -/
structure TextDocumentContentChangeEvent where
  range : Option (LspPosition × LspPosition)
  text : List Char
  range_length : Option Nat
deriving DecidableEq, Repr

/-- The inner `traverse` of `Client::changeset_to_changes`
(src/helix-lsp/src/client.rs): advance a protocol position through `text`,
treating `'\n'`, `'\r'` and `"\r\n"` as single line endings and adding
`len_utf16` code units per other character. -/
def traverse : LspPosition → List Char → LspPosition
  | pos, [] => pos
  | pos, '\r' :: '\n' :: rest => traverse ⟨pos.line + 1, 0⟩ rest
  | pos, c :: rest =>
    if c = '\n' || c = '\r' then traverse ⟨pos.line + 1, 0⟩ rest
    else traverse ⟨pos.line, pos.character + lenUtf16 c⟩ rest

/-- `old_text.slice(a..b)` on the char range `[a, b)`. -/
def listSlice (doc : List Char) (a b : Nat) : List Char :=
  (doc.drop a).take (b - a)

/-- Result of the translator's loop: the emitted events plus the final
`old_pos`/`new_pos` cursors (internal in the Rust; exposed here so the
spec's cursor invariant can be stated). -/
structure ChangesOut where
  changes : List TextDocumentContentChangeEvent
  old_pos : Nat
  new_pos : Nat
deriving DecidableEq, Repr

/-- The loop of `Client::changeset_to_changes` (src/helix-lsp/src/client.rs):
walk the operation list keeping `old_pos`/`new_pos`; `Retain` advances both
cursors; `Delete` emits a removal whose start is `new_pos` converted on the
new document and whose end is `traverse`d over the deleted old text;
`Insert` emits an insertion at `new_pos`, consuming a directly following
`Delete` into a single replacement. -/
def changesetLoop (old_text new_text : List Char)
    (offset_encoding : OffsetEncoding) :
    List Operation → Nat → Nat → ChangesOut
  | [], old_pos, new_pos => ⟨[], old_pos, new_pos⟩
  | .retain i :: ops, old_pos, new_pos =>
    changesetLoop old_text new_text offset_encoding ops (old_pos + i) (new_pos + i)
  | .delete i :: ops, old_pos, new_pos =>
    let old_end := old_pos + i
    let start := pos_to_lsp_pos new_text new_pos offset_encoding
    let stop := traverse start (listSlice old_text old_pos old_end)
    let rest := changesetLoop old_text new_text offset_encoding ops old_end new_pos
    ⟨⟨some (start, stop), [], none⟩ :: rest.changes, rest.old_pos, rest.new_pos⟩
  | .insert s :: .delete len :: ops2, old_pos, new_pos =>
    let start := pos_to_lsp_pos new_text new_pos offset_encoding
    let new_pos2 := new_pos + s.length
    let old_end := old_pos + len
    let stop := traverse start (listSlice old_text old_pos old_end)
    let rest := changesetLoop old_text new_text offset_encoding ops2 old_end new_pos2
    ⟨⟨some (start, stop), s, none⟩ :: rest.changes, rest.old_pos, rest.new_pos⟩
  | .insert s :: ops, old_pos, new_pos =>
    let start := pos_to_lsp_pos new_text new_pos offset_encoding
    let new_pos2 := new_pos + s.length
    let rest := changesetLoop old_text new_text offset_encoding ops old_pos new_pos2
    ⟨⟨some (start, start), s, none⟩ :: rest.changes, rest.old_pos, rest.new_pos⟩

/-- `Client::changeset_to_changes` (src/helix-lsp/src/client.rs): the Change
Translator. -/
def changeset_to_changes (old_text new_text : List Char) (changeset : List Operation)
    (offset_encoding : OffsetEncoding) : List TextDocumentContentChangeEvent :=
  (changesetLoop old_text new_text offset_encoding changeset 0 0).changes

/-- Sum of the `Retain` and `Delete` lengths of an operation list (the old
document length the list consumes). -/
def sumLen : List Operation → Nat
  | [] => 0
  | .retain n :: ops => n + sumLen ops
  | .delete n :: ops => n + sumLen ops
  | .insert _ :: ops => sumLen ops

/-- The new document implied by an operation list applied to `old` (the
`ChangeSet` application semantics: retain copies, delete skips, insert
emits). -/
def opsApply : List Operation → List Char → List Char
  | [], rest => rest
  | .retain n :: ops, old => old.take n ++ opsApply ops (old.drop n)
  | .delete n :: ops, old => opsApply ops (old.drop n)
  | .insert s :: ops, old => s ++ opsApply ops old

/-- The inserted text of an operation (`[]` for retain/delete). -/
def Operation.insertText : Operation → List Char
  | .insert s => s
  | _ => []

/-- Modelled from the spec: applying one protocol change event to a
document.  The event's range endpoints are resolved with the Offset Codec
under the event's encoding (as the repository's own
`generate_transaction_from_edits` does) and the addressed span is replaced
by the event's text; a whole-document event replaces everything. -/
def applyEvent (offset_encoding : OffsetEncoding) (doc : List Char)
    (ev : TextDocumentContentChangeEvent) : Option (List Char) :=
  match ev.range with
  | none => some ev.text
  | some (s, e) =>
    match lsp_pos_to_pos doc s offset_encoding, lsp_pos_to_pos doc e offset_encoding with
    | some si, some ei => some (doc.take si ++ ev.text ++ doc.drop ei)
    | _, _ => none

/-- Modelled from the spec: applying a sequence of change events in order,
each against the document produced by the previous ones. -/
def applyEvents (offset_encoding : OffsetEncoding) :
    List Char → List TextDocumentContentChangeEvent → Option (List Char)
  | doc, [] => some doc
  | doc, ev :: evs =>
    match applyEvent offset_encoding doc ev with
    | some doc2 => applyEvents offset_encoding doc2 evs
    | none => none

example :
    changeset_to_changes ['a','b','c'] ['a','x','c']
      [.retain 1, .delete 1, .insert ['x'], .retain 1] .Utf8
      = [⟨some (⟨0,1⟩, ⟨0,2⟩), [], none⟩, ⟨some (⟨0,1⟩, ⟨0,1⟩), ['x'], none⟩] := by
  decide

example :
    changeset_to_changes ['a','b','c'] ['a','x','c']
      [.retain 1, .insert ['x'], .delete 1, .retain 1] .Utf8
      = [⟨some (⟨0,1⟩, ⟨0,2⟩), ['x'], none⟩] := by decide

example :
    applyEvents .Utf8 ['a','b','c']
      (changeset_to_changes ['a','b','c'] ['a','x','c']
        [.retain 1, .insert ['x'], .delete 1, .retain 1] .Utf8)
      = some ['a','x','c'] := by decide

example :
    applyEvents .Utf8 ['a', Char.ofNat 0x10400, 'b']
      (changeset_to_changes ['a', Char.ofNat 0x10400, 'b'] ['a','b']
        [.retain 1, .delete 1, .retain 1] .Utf8)
      = some ['a'] := by decide

example :
    changeset_to_changes ['é','a','b'] ['a','b'] [.delete 1, .retain 2] .Utf8
      = [⟨some (⟨0,0⟩, ⟨0,1⟩), [], none⟩] := by decide

/-- `lsp::TextDocumentSyncKind`: the declared document-sync kind. -/
inductive TextDocumentSyncKind
  | None
  | Full
  | Incremental
deriving DecidableEq, Repr

/-- `lsp::TextDocumentSyncSaveOptions`. -/
inductive TextDocumentSyncSaveOptions
  | Supported (b : Bool)
  | SaveOptions (include_text : Option Bool)
deriving DecidableEq, Repr

/-- `lsp::TextDocumentSyncOptions` (fields not read by the client elided). -/
structure TextDocumentSyncOptions where
  change : Option TextDocumentSyncKind
  save : Option TextDocumentSyncSaveOptions
deriving DecidableEq, Repr

/-- `lsp::TextDocumentSyncCapability`. -/
inductive TextDocumentSyncCapability
  | Kind (k : TextDocumentSyncKind)
  | Options (o : TextDocumentSyncOptions)
deriving DecidableEq, Repr

/-- `lsp::ServerCapabilities`, restricted to the fields the verified
operations read. -/
structure ServerCapabilities where
  text_document_sync : Option TextDocumentSyncCapability
deriving DecidableEq, Repr

/-- The declared sync kind a capability set carries: the kind of a
`Kind` capability, or the `change` field of an `Options` capability. -/
def declaredSyncKind (caps : ServerCapabilities) : Option TextDocumentSyncKind :=
  match caps.text_document_sync with
  | some (.Kind k) => some k
  | some (.Options o) => o.change
  | none => none

/-- `Client::text_document_did_change` (src/helix-lsp/src/client.rs),
modelled as the list of change events the notification would carry:
`none` means the function returns `None` (nothing to send).  The
`capabilities.get().unwrap()` of the source presumes an initialized
client, so the capability set is a direct argument here. -/
def text_document_did_change (capabilities : ServerCapabilities)
    (old_text new_text : List Char) (changes : List Operation)
    (offset_encoding : OffsetEncoding) :
    Option (List TextDocumentContentChangeEvent) :=
  match capabilities.text_document_sync with
  | some (.Kind kind) | some (.Options ⟨some kind, _⟩) =>
    match kind with
    | .Full => some [⟨none, new_text, none⟩]
    | .Incremental =>
      some (changeset_to_changes old_text new_text changes offset_encoding)
    | .None => none
  | _ => none

/-- The error taxonomy (src/helix-lsp/src/lib.rs); payloads elided, and
`Io` stands for the source's input/output failure variant. -/
inductive Error
  | Rpc
  | Parse
  | Io
  | Timeout
  | StreamClosed
  | LspNotDefined
  | Other
deriving DecidableEq, Repr

/-- `Client` (src/helix-lsp/src/client.rs): the per-connection state the
verified operations touch.  The subprocess handle and transport are
external; the `OnceCell` capability cell is an `Option`. -/
structure Client where
  id : Nat
  request_counter : Nat
  capabilities : Option ServerCapabilities
  offset_encoding : OffsetEncoding
  config : Option String
deriving DecidableEq, Repr

/-- `Client::start` (success path; spawning and transport are external):
the freshly constructed client state. -/
def Client.start (id : Nat) (config : Option String) : Client :=
  { id := id
    request_counter := 0
    capabilities := none
    offset_encoding := OffsetEncoding.Utf8
    config := config }

/-- `self.capabilities.get_or_try_init(...)` success path as run by the
registry's handshake task: installs the capability set if the cell is
still empty. -/
def Client.set_capabilities (c : Client) (caps : ServerCapabilities) : Client :=
  match c.capabilities with
  | some _ => c
  | none => { c with capabilities := some caps }

/-- `Client::next_request_id`: atomic fetch-add on the request counter. -/
def Client.next_request_id (c : Client) : Nat × Client :=
  (c.request_counter, { c with request_counter := c.request_counter + 1 })

/-- The messages force_shutdown can put on the outbound channel. -/
inductive OutMsg
  | shutdownRequest
  | exitNotification
deriving DecidableEq, Repr

/-- The outbound half of the server channel: whether the channel is still
connected, and the messages sent so far. -/
structure ServerTx where
  connected : Bool
  sent : List OutMsg
deriving DecidableEq, Repr

/-- `notify::<Exit>` / `Client::exit`: fire-and-forget; fails only when
the outbound channel is gone. -/
def Client.exitNotify (tx : ServerTx) : Except Error ServerTx :=
  if tx.connected then .ok { tx with sent := tx.sent ++ [OutMsg.exitNotification] }
  else .error .Other

/-- `Client::force_shutdown` (src/helix-lsp/src/client.rs): run the
graceful shutdown request (its sending succeeds only on a connected
channel; its outcome `shutdown_result` - the server's reply, a timeout, a
send failure - is supplied by the environment), log-and-discard any
shutdown failure, then send the exit notification and return its result. -/
def force_shutdown (tx : ServerTx) (shutdown_result : Except Error Unit) :
    Except Error Unit × ServerTx :=
  -- `if let Err(e) = self.shutdown().await { log::warn!(..) }`: the
  -- result is dropped; the shutdown request itself reached the channel
  -- only if connected.
  let _ := shutdown_result
  let tx1 : ServerTx :=
    if tx.connected then { tx with sent := tx.sent ++ [OutMsg.shutdownRequest] }
    else tx
  match Client.exitNotify tx1 with
  | .ok tx2 => (.ok (), tx2)
  | .error e => (.error e, tx1)

/-- `lsp::ProgressToken`: opaque token, a number or a string. -/
inductive ProgressToken
  | Number (n : Int)
  | Str (s : String)
deriving DecidableEq, Repr

/-- `lsp::WorkDoneProgress`: the progress payload reported by a server. -/
inductive WorkDoneProgress
  | Begin (title : String)
  | Report (message : Option String)
  | End (message : Option String)
deriving DecidableEq, Repr

/-- `ProgressStatus` (src/helix-lsp/src/lib.rs). -/
inductive ProgressStatus
  | Created
  | Started (progress : WorkDoneProgress)
deriving DecidableEq, Repr

/-- `HashMap::get` on an association-list model. -/
def alistGet {α β : Type} [DecidableEq α] : List (α × β) → α → Option β
  | [], _ => none
  | (k, v) :: rest, key => if key = k then some v else alistGet rest key

/-- `HashMap::insert` on an association-list model: overwrite, returning
the updated list and the previous value. -/
def alistInsert {α β : Type} [DecidableEq α] :
    List (α × β) → α → β → List (α × β) × Option β
  | [], key, v => ([(key, v)], none)
  | (k, w) :: rest, key, v =>
    if key = k then ((key, v) :: rest, some w)
    else
      let r := alistInsert rest key v
      ((k, w) :: r.1, r.2)

/-- `HashMap::remove` on an association-list model: returning the updated
list and the removed value. -/
def alistRemove {α β : Type} [DecidableEq α] :
    List (α × β) → α → List (α × β) × Option β
  | [], _ => ([], none)
  | (k, w) :: rest, key =>
    if key = k then (rest, some w)
    else
      let r := alistRemove rest key
      ((k, w) :: r.1, r.2)

/-- `LspProgressMap` (src/helix-lsp/src/lib.rs): per connection id, a map
from progress token to status (`HashMap`s modelled as association lists;
the Rust type is the same newtype around its map). -/
structure LspProgressMap where
  toMap : List (Nat × List (ProgressToken × ProgressStatus))
deriving DecidableEq, Repr

/-- `LspProgressMap::new`. -/
def LspProgressMap.new : LspProgressMap := ⟨[]⟩

/-- The inner token map of connection `id`, if present (`self.0.get(&id)`). -/
def LspProgressMap.inner (m : LspProgressMap) (id : Nat) :
    Option (List (ProgressToken × ProgressStatus)) :=
  alistGet m.toMap id

/-- Store the inner token map of connection `id`
(`self.0.entry(id).or_default()` followed by writing through it). -/
def LspProgressMap.setInner (m : LspProgressMap) (id : Nat)
    (inner : List (ProgressToken × ProgressStatus)) : LspProgressMap :=
  ⟨(alistInsert m.toMap id inner).1⟩

/-- `LspProgressMap::progress`: the last status for `id`/`token`. -/
def LspProgressMap.progress (m : LspProgressMap) (id : Nat)
    (token : ProgressToken) : Option ProgressStatus :=
  (m.inner id).bind (fun values => alistGet values token)

/-- `LspProgressMap::is_progressing`: whether any token is tracked
for `id`. -/
def LspProgressMap.is_progressing (m : LspProgressMap) (id : Nat) : Bool :=
  match m.inner id with
  | some values => !values.isEmpty
  | none => false

/-- `LspProgressMap::create`: `entry(id).or_default().insert(token, Created)`. -/
def LspProgressMap.create (m : LspProgressMap) (id : Nat)
    (token : ProgressToken) : LspProgressMap :=
  let values := (m.inner id).getD []
  m.setInner id (alistInsert values token ProgressStatus.Created).1

/-- `LspProgressMap::update`: insert/overwrite `Started(status)`,
returning the replaced value. -/
def LspProgressMap.update (m : LspProgressMap) (id : Nat)
    (token : ProgressToken) (status : WorkDoneProgress) :
    LspProgressMap × Option ProgressStatus :=
  let values := (m.inner id).getD []
  let r := alistInsert values token (ProgressStatus.Started status)
  (m.setInner id r.1, r.2)

/-- `LspProgressMap::end_progress`: remove `token` for `id`, returning the
removed value. -/
def LspProgressMap.end_progress (m : LspProgressMap) (id : Nat)
    (token : ProgressToken) : LspProgressMap × Option ProgressStatus :=
  match m.inner id with
  | none => (m, none)
  | some values =>
    let r := alistRemove values token
    (m.setInner id r.1, r.2)

instance {ε α : Type} [DecidableEq ε] [DecidableEq α] :
    DecidableEq (Except ε α) := fun a b =>
  match a, b with
  | .ok x, .ok y =>
    if h : x = y then .isTrue (by rw [h]) else .isFalse (by simp [h])
  | .error x, .error y =>
    if h : x = y then .isTrue (by rw [h]) else .isFalse (by simp [h])
  | .ok _, .error _ => .isFalse (by simp)
  | .error _, .ok _ => .isFalse (by simp)

example :
    (((LspProgressMap.new.create 3 (.Number 7)).update 3 (.Number 7)
        (.Begin "t")).1.end_progress 3 (.Number 7)).2
      = some (.Started (.Begin "t")) := by decide

example :
    (force_shutdown ⟨true, []⟩ (.error .Timeout)).1 = .ok () := by decide

example :
    (force_shutdown ⟨false, []⟩ (.error .Timeout)).1 = .error .Other := by decide

/-! ## Simple-document hypotheses for the Change Translator proof -/

/-- The document uses `'\n'` as its only line-break character (no carriage
returns and no exotic Unicode line breaks). -/
def nlOnly (l : List Char) : Prop :=
  ∀ c ∈ l, isBreakChar c = true → c = '\n'

/-- Every character is a single UTF-16 code unit (Basic Multilingual
Plane). -/
def allBMP (l : List Char) : Prop :=
  ∀ c ∈ l, lenUtf16 c = 1

instance decNlOnly (l : List Char) : Decidable (nlOnly l) := by
  unfold nlOnly
  exact List.decidableBAll _ l

instance decAllBMP (l : List Char) : Decidable (allBMP l) := by
  unfold allBMP
  exact List.decidableBAll _ l

/-! ## Offset Codec lemmas -/

theorem lenUtf16_pos (c : Char) : 1 ≤ lenUtf16 c := by
  unfold lenUtf16; split <;> omega

theorem utf16Len_append (a b : List Char) :
    utf16Len (a ++ b) = utf16Len a + utf16Len b := by
  simp [utf16Len]

theorem utf16Len_cons (c : Char) (t : List Char) :
    utf16Len (c :: t) = lenUtf16 c + utf16Len t := by
  simp [utf16Len]

theorem charToUtf16Cu_succ (doc : List Char) (i : Nat) :
    charToUtf16Cu doc (i + 1)
      = charToUtf16Cu doc i
        + (match doc.get? i with | some c => lenUtf16 c | none => 0) := by
  unfold charToUtf16Cu
  rw [List.take_succ, utf16Len_append]
  rw [List.get?_eq_getElem?]
  cases h : doc[i]? <;> simp [h, utf16Len]

theorem charToUtf16Cu_mono (doc : List Char) {i j : Nat} (h : i ≤ j) :
    charToUtf16Cu doc i ≤ charToUtf16Cu doc j := by
  induction j, h using Nat.le_induction with
  | base => exact Nat.le_refl _
  | succ j _ ih =>
    refine Nat.le_trans ih ?_
    rw [charToUtf16Cu_succ]
    exact Nat.le_add_right _ _

theorem utf16CuToChar_charToUtf16Cu (doc : List Char) :
    ∀ i, i ≤ doc.length → utf16CuToChar doc (charToUtf16Cu doc i) = i := by
  induction doc with
  | nil =>
    intro i hi
    have h0 : i = 0 := Nat.le_zero.mp hi
    subst h0; rfl
  | cons c rest ih =>
    intro i hi
    cases i with
    | zero =>
      show utf16CuToChar (c :: rest) (utf16Len ((c :: rest).take 0)) = 0
      have h1 : (0 : Nat) < lenUtf16 c := lenUtf16_pos c
      simp [utf16Len, utf16CuToChar, h1]
    | succ i =>
      have hcu : charToUtf16Cu (c :: rest) (i + 1) = lenUtf16 c + charToUtf16Cu rest i := by
        unfold charToUtf16Cu
        rw [List.take_succ_cons, utf16Len_cons]
      rw [hcu]
      unfold utf16CuToChar
      rw [if_neg (by omega)]
      rw [Nat.add_sub_cancel_left]
      rw [ih i (Nat.le_of_succ_le_succ hi)]
      omega

theorem charToLine_succ (doc : List Char) (i : Nat) :
    charToLine doc (i + 1)
      = charToLine doc i + (if breakEndsAt doc i then 1 else 0) := by
  unfold charToLine
  rw [List.range_succ, List.countP_append]
  simp [List.countP_cons]

theorem charToLine_mono (doc : List Char) {i j : Nat} (h : i ≤ j) :
    charToLine doc i ≤ charToLine doc j := by
  induction j, h using Nat.le_induction with
  | base => exact Nat.le_refl _
  | succ j _ ih =>
    refine Nat.le_trans ih ?_
    rw [charToLine_succ]
    split <;> omega

theorem filterRange_get (doc : List Char) {i : Nat} (hi : i < doc.length)
    (hp : breakEndsAt doc i = true) :
    ((List.range doc.length).filter (breakEndsAt doc)).get? (charToLine doc i)
      = some i := by
  have hsplit : doc.length = (i + 1) + (doc.length - (i + 1)) := by omega
  rw [hsplit, List.range_add, List.filter_append, List.range_succ,
    List.filter_append]
  have h1 : List.filter (breakEndsAt doc) [i] = [i] := by
    simp [List.filter, hp]
  rw [h1, List.append_assoc]
  have hlen : (List.filter (breakEndsAt doc) (List.range i)).length
      = charToLine doc i := by
    rw [charToLine, List.countP_eq_length_filter]
  rw [List.get?_append_right (by omega), hlen.symm, Nat.sub_self]
  rfl

theorem lineToChar_succ_eq (doc : List Char) (l : Nat) :
    lineToChar doc (l + 1)
      = match ((List.range doc.length).filter (breakEndsAt doc)).get? l with
        | some j => j + 1
        | none => doc.length := rfl

theorem lineToChar_succ_break (doc : List Char) {i : Nat} (hi : i < doc.length)
    (hp : breakEndsAt doc i = true) :
    lineToChar doc (charToLine doc i + 1) = i + 1 := by
  rw [lineToChar_succ_eq, filterRange_get doc hi hp]

theorem lineToChar_charToLine_le (doc : List Char) :
    ∀ i, i ≤ doc.length → lineToChar doc (charToLine doc i) ≤ i := by
  intro i
  induction i with
  | zero => intro _; simp [charToLine, lineToChar]
  | succ i ih =>
    intro hi
    have hi' : i ≤ doc.length := Nat.le_of_succ_le hi
    cases hb : breakEndsAt doc i with
    | false =>
      have hc : charToLine doc (i + 1) = charToLine doc i := by
        rw [charToLine_succ, hb]; simp
      rw [hc]
      exact Nat.le_trans (ih hi') (Nat.le_succ i)
    | true =>
      have hc : charToLine doc (i + 1) = charToLine doc i + 1 := by
        rw [charToLine_succ, hb]; simp
      rw [hc, lineToChar_succ_break doc (by omega) hb]

theorem lenLines_sub_one (doc : List Char) :
    lenLines doc - 1 = charToLine doc doc.length := by
  simp [lenLines, charToLine]

theorem lineToChar_top (doc : List Char) :
    lineToChar doc (charToLine doc doc.length + 1) = doc.length := by
  have hlen : (List.filter (breakEndsAt doc) (List.range doc.length)).length
      = charToLine doc doc.length := by
    rw [charToLine, List.countP_eq_length_filter]
  rw [lineToChar_succ_eq, List.get?_eq_none.mpr (by omega)]

theorem maxChar_eq (doc : List Char) :
    lineToChar doc (lenLines doc - 1) + lineLenChars doc (lenLines doc - 1)
      = doc.length := by
  rw [lenLines_sub_one]
  unfold lineLenChars
  rw [lineToChar_top]
  have h := lineToChar_charToLine_le doc doc.length (Nat.le_refl _)
  omega

theorem pos_roundtrip (doc : List Char) (i : Nat) (enc : OffsetEncoding)
    (h : i ≤ doc.length) :
    lsp_pos_to_pos doc (pos_to_lsp_pos doc i enc) enc = some i := by
  have hml : charToLine doc i ≤ lenLines doc - 1 := by
    rw [lenLines_sub_one]; exact charToLine_mono doc h
  have hls : lineToChar doc (charToLine doc i) ≤ i :=
    lineToChar_charToLine_le doc i h
  cases enc with
  | Utf8 =>
    show lsp_pos_to_pos doc
        ⟨charToLine doc i, i - lineToChar doc (charToLine doc i)⟩ .Utf8 = some i
    simp only [lsp_pos_to_pos]
    rw [if_neg (by omega)]
    rw [maxChar_eq doc]
    have hp : lineToChar doc (charToLine doc i)
        + (i - lineToChar doc (charToLine doc i)) = i := by omega
    rw [hp, if_pos h]
  | Utf16 =>
    show lsp_pos_to_pos doc
        ⟨charToLine doc i,
          charToUtf16Cu doc i - charToUtf16Cu doc (lineToChar doc (charToLine doc i))⟩
        .Utf16 = some i
    simp only [lsp_pos_to_pos]
    rw [if_neg (by omega)]
    rw [maxChar_eq doc]
    have hcls : charToUtf16Cu doc (lineToChar doc (charToLine doc i))
        ≤ charToUtf16Cu doc i := charToUtf16Cu_mono doc hls
    have hp : charToUtf16Cu doc (lineToChar doc (charToLine doc i))
        + (charToUtf16Cu doc i
            - charToUtf16Cu doc (lineToChar doc (charToLine doc i)))
        = charToUtf16Cu doc i := by omega
    rw [hp, if_pos (charToUtf16Cu_mono doc h)]
    rw [utf16CuToChar_charToUtf16Cu doc i h]

theorem nlOnly_mono {l1 l2 : List Char} (hsub : l1 ⊆ l2) (h : nlOnly l2) :
    nlOnly l1 := fun c hc hb => h c (hsub hc) hb

theorem nlOnly_append {a b : List Char} (ha : nlOnly a) (hb : nlOnly b) :
    nlOnly (a ++ b) := by
  intro c hc hbr
  rcases List.mem_append.mp hc with h | h
  · exact ha c h hbr
  · exact hb c h hbr

theorem nlOnly_not_cr {l : List Char} (h : nlOnly l) {c : Char} (hc : c ∈ l) :
    c ≠ '\r' := by
  intro he
  subst he
  have := h '\r' hc (by decide)
  exact absurd this (by decide)

theorem nlOnly_breakEndsAt {doc : List Char} (h : nlOnly doc) (j : Nat) :
    breakEndsAt doc j = (doc.get? j == some '\n') := by
  unfold breakEndsAt
  cases hg : doc.get? j with
  | none => rfl
  | some c =>
    have hmem : c ∈ doc := List.get?_mem hg
    have hcr : c ≠ '\r' := nlOnly_not_cr h hmem
    show (if c = '\r' then !(doc.get? (j + 1) == some '\n') else isBreakChar c)
        = (some c == some '\n')
    rw [if_neg hcr]
    by_cases hnl : c = '\n'
    · subst hnl; decide
    · have hfb : isBreakChar c = false := by
        cases hb : isBreakChar c with
        | false => rfl
        | true => exact absurd (h c hmem hb) hnl
      have hne : (some c : Option Char) ≠ some '\n' := by simpa using hnl
      rw [hfb, beq_eq_false_iff_ne.mpr hne]

theorem charToLine_prefix_eq {d1 d2 : List Char} {n : Nat}
    (htake : d1.take n = d2.take n) (h1 : nlOnly d1) (h2 : nlOnly d2)
    {i : Nat} (hi : i ≤ n) :
    charToLine d1 i = charToLine d2 i := by
  unfold charToLine
  refine List.countP_congr ?_
  intro j hj
  have hjn : j < n := Nat.lt_of_lt_of_le (List.mem_range.mp hj) hi
  have hget : d1.get? j = d2.get? j := by
    rw [← List.get?_take hjn (l := d1), ← List.get?_take hjn (l := d2), htake]
  rw [nlOnly_breakEndsAt h1, nlOnly_breakEndsAt h2, hget]

theorem filter_range_prefix_eq {d1 d2 : List Char} {n : Nat}
    (htake : d1.take n = d2.take n) (h1 : nlOnly d1) (h2 : nlOnly d2)
    (hn1 : n ≤ d1.length) (hn2 : n ≤ d2.length) {k : Nat}
    (hk : k < charToLine d1 n) :
    ((List.range d1.length).filter (breakEndsAt d1)).get? k
      = ((List.range d2.length).filter (breakEndsAt d2)).get? k := by
  have hsame : (List.range n).filter (breakEndsAt d1)
      = (List.range n).filter (breakEndsAt d2) := by
    refine List.filter_congr ?_
    intro j hj
    have hjn : j < n := List.mem_range.mp hj
    have hget : d1.get? j = d2.get? j := by
      rw [← List.get?_take hjn (l := d1), ← List.get?_take hjn (l := d2), htake]
    rw [nlOnly_breakEndsAt h1, nlOnly_breakEndsAt h2, hget]
  have hlen1 : k < ((List.range n).filter (breakEndsAt d1)).length := by
    rw [← List.countP_eq_length_filter]
    exact hk
  have hlen2 : k < ((List.range n).filter (breakEndsAt d2)).length := by
    rw [← hsame]; exact hlen1
  have hsplit1 : d1.length = n + (d1.length - n) := by omega
  have hsplit2 : d2.length = n + (d2.length - n) := by omega
  rw [hsplit1, List.range_add, List.filter_append, List.get?_append hlen1,
    hsplit2, List.range_add, List.filter_append, List.get?_append hlen2, hsame]

theorem lineToChar_prefix_eq {d1 d2 : List Char} {n : Nat}
    (htake : d1.take n = d2.take n) (h1 : nlOnly d1) (h2 : nlOnly d2)
    (hn1 : n ≤ d1.length) (hn2 : n ≤ d2.length) {l : Nat}
    (hl : l ≤ charToLine d1 n) :
    lineToChar d1 l = lineToChar d2 l := by
  cases l with
  | zero => rfl
  | succ k =>
    rw [lineToChar_succ_eq, lineToChar_succ_eq]
    have hk : k < charToLine d1 n := hl
    rw [filter_range_prefix_eq htake h1 h2 hn1 hn2 hk]
    have hval : ∀ v, ((List.range d2.length).filter (breakEndsAt d2)).get? k = v →
        (match v with | some j => j + 1 | none => d2.length)
          = (match v with | some j => j + 1 | none => d1.length) := by
      intro v hv
      cases v with
      | some j => rfl
      | none =>
        exfalso
        have hc : charToLine d1 n = charToLine d2 n :=
          charToLine_prefix_eq htake h1 h2 (Nat.le_refl n)
        have hmono : charToLine d2 n ≤ charToLine d2 d2.length :=
          charToLine_mono d2 hn2
        have hdef : charToLine d2 d2.length
            = ((List.range d2.length).filter (breakEndsAt d2)).length := by
          rw [charToLine, List.countP_eq_length_filter]
        have hnone := List.get?_eq_none.mp hv
        omega
    exact (hval _ rfl).symm

theorem charToUtf16Cu_prefix_eq {d1 d2 : List Char} {n : Nat}
    (htake : d1.take n = d2.take n) {m : Nat} (hm : m ≤ n) :
    charToUtf16Cu d1 m = charToUtf16Cu d2 m := by
  unfold charToUtf16Cu
  have h1 : d1.take m = (d1.take n).take m := by
    rw [List.take_take, Nat.min_eq_left hm]
  have h2 : d2.take m = (d2.take n).take m := by
    rw [List.take_take, Nat.min_eq_left hm]
  rw [h1, h2, htake]

theorem pos_to_lsp_pos_prefix_eq {d1 d2 : List Char} {n : Nat}
    (htake : d1.take n = d2.take n) (h1 : nlOnly d1) (h2 : nlOnly d2)
    (hn1 : n ≤ d1.length) (hn2 : n ≤ d2.length) (enc : OffsetEncoding) :
    pos_to_lsp_pos d1 n enc = pos_to_lsp_pos d2 n enc := by
  have hline : charToLine d1 n = charToLine d2 n :=
    charToLine_prefix_eq htake h1 h2 (Nat.le_refl n)
  have hltc : lineToChar d1 (charToLine d1 n) = lineToChar d2 (charToLine d1 n) :=
    lineToChar_prefix_eq htake h1 h2 hn1 hn2 (Nat.le_refl _)
  have hls : lineToChar d1 (charToLine d1 n) ≤ n :=
    lineToChar_charToLine_le d1 n hn1
  cases enc with
  | Utf8 =>
    simp only [pos_to_lsp_pos]
    rw [← hline, hltc.symm]
  | Utf16 =>
    simp only [pos_to_lsp_pos]
    rw [← hline, hltc.symm]
    rw [charToUtf16Cu_prefix_eq htake (Nat.le_refl n),
      charToUtf16Cu_prefix_eq htake hls]

theorem traverse_cons_nl (pos : LspPosition) (rest : List Char) :
    traverse pos ('\n' :: rest) = traverse ⟨pos.line + 1, 0⟩ rest := rfl

theorem traverse_cons_other (pos : LspPosition) {c : Char} (rest : List Char)
    (h1 : c ≠ '\n') (h2 : c ≠ '\r') :
    traverse pos (c :: rest)
      = traverse ⟨pos.line, pos.character + lenUtf16 c⟩ rest := by
  rw [traverse.eq_3 pos c rest (fun _ hc _ => absurd hc h2)]
  simp [h1, h2]

theorem pos_to_lsp_pos_succ_nl {doc : List Char} (h : nlOnly doc) {i : Nat}
    (hi : i < doc.length) (hg : doc.get? i = some '\n') (enc : OffsetEncoding) :
    pos_to_lsp_pos doc (i + 1) enc
      = ⟨(pos_to_lsp_pos doc i enc).line + 1, 0⟩ := by
  have hb : breakEndsAt doc i = true := by
    rw [nlOnly_breakEndsAt h, hg]; rfl
  have hc1 : charToLine doc (i + 1) = charToLine doc i + 1 := by
    rw [charToLine_succ, hb]; simp
  have hl1 : lineToChar doc (charToLine doc i + 1) = i + 1 :=
    lineToChar_succ_break doc hi hb
  cases enc with
  | Utf8 =>
    simp only [pos_to_lsp_pos]
    rw [hc1, hl1]
    simp
  | Utf16 =>
    simp only [pos_to_lsp_pos]
    rw [hc1, hl1]
    simp

theorem pos_to_lsp_pos_succ_other {doc : List Char} (h : nlOnly doc) {i : Nat}
    (hi : i < doc.length) {c : Char} (hg : doc.get? i = some c)
    (hnl : c ≠ '\n') (enc : OffsetEncoding) :
    pos_to_lsp_pos doc (i + 1) enc
      = ⟨(pos_to_lsp_pos doc i enc).line,
          (pos_to_lsp_pos doc i enc).character
            + (match enc with | .Utf8 => 1 | .Utf16 => lenUtf16 c)⟩ := by
  have hb : breakEndsAt doc i = false := by
    rw [nlOnly_breakEndsAt h, hg]
    exact beq_eq_false_iff_ne.mpr (by simpa using hnl)
  have hc1 : charToLine doc (i + 1) = charToLine doc i := by
    rw [charToLine_succ, hb]; simp
  have hls : lineToChar doc (charToLine doc i) ≤ i :=
    lineToChar_charToLine_le doc i (Nat.le_of_lt hi)
  cases enc with
  | Utf8 =>
    simp only [pos_to_lsp_pos]
    rw [hc1]
    have hchar : i + 1 - lineToChar doc (charToLine doc i)
        = (i - lineToChar doc (charToLine doc i)) + 1 := by omega
    rw [hchar]
  | Utf16 =>
    simp only [pos_to_lsp_pos]
    rw [hc1]
    have hcu : charToUtf16Cu doc (i + 1) = charToUtf16Cu doc i + lenUtf16 c := by
      rw [charToUtf16Cu_succ, hg]
    have hcls : charToUtf16Cu doc (lineToChar doc (charToLine doc i))
        ≤ charToUtf16Cu doc i := charToUtf16Cu_mono doc hls
    rw [hcu]
    have hchar : charToUtf16Cu doc i + lenUtf16 c
          - charToUtf16Cu doc (lineToChar doc (charToLine doc i))
        = (charToUtf16Cu doc i
            - charToUtf16Cu doc (lineToChar doc (charToLine doc i)))
          + lenUtf16 c := by omega
    rw [hchar]

theorem listSlice_cons {doc : List Char} {n k : Nat}
    (hlt : n < doc.length) :
    listSlice doc n (n + (k + 1))
      = doc.get ⟨n, hlt⟩ :: listSlice doc (n + 1) ((n + 1) + k) := by
  unfold listSlice
  rw [List.drop_eq_get_cons hlt]
  have h1 : n + (k + 1) - n = k + 1 := by omega
  have h2 : (n + 1) + k - (n + 1) = k := by omega
  rw [h1, h2, List.take_succ_cons]

theorem traverse_slice {doc : List Char} (h : nlOnly doc) (enc : OffsetEncoding) :
    ∀ k n, n + k ≤ doc.length →
      (enc = .Utf8 → allBMP (listSlice doc n (n + k))) →
      traverse (pos_to_lsp_pos doc n enc) (listSlice doc n (n + k))
        = pos_to_lsp_pos doc (n + k) enc := by
  intro k
  induction k with
  | zero =>
    intro n hn _
    have h0 : listSlice doc n (n + 0) = [] := by simp [listSlice]
    rw [h0, Nat.add_zero]
    rfl
  | succ k ih =>
    intro n hn hbmp
    have hlt : n < doc.length := by omega
    set c := doc.get ⟨n, hlt⟩ with hc
    have hg : doc.get? n = some c := List.get?_eq_get hlt
    have hmem : c ∈ doc := List.get?_mem hg
    have hsl : listSlice doc n (n + (k + 1))
        = c :: listSlice doc (n + 1) ((n + 1) + k) := listSlice_cons hlt
    have hmemsl : c ∈ listSlice doc n (n + (k + 1)) := by
      rw [hsl]; exact List.mem_cons_self _ _
    have hbmp2 : enc = .Utf8 → allBMP (listSlice doc (n + 1) ((n + 1) + k)) := by
      intro he
      intro x hx
      exact hbmp he x (by rw [hsl]; exact List.mem_cons_of_mem _ hx)
    have harith : n + (k + 1) = (n + 1) + k := by omega
    by_cases hnl : c = '\n'
    · rw [hsl, hnl, traverse_cons_nl]
      rw [← pos_to_lsp_pos_succ_nl h hlt (hnl ▸ hg) enc]
      rw [harith]
      exact ih (n + 1) (by omega) hbmp2
    · have hcr : c ≠ '\r' := nlOnly_not_cr h hmem
      rw [hsl, traverse_cons_other _ _ hnl hcr]
      have hstep := pos_to_lsp_pos_succ_other h hlt hg hnl enc
      have hstep2 : pos_to_lsp_pos doc (n + 1) enc
          = ⟨(pos_to_lsp_pos doc n enc).line,
              (pos_to_lsp_pos doc n enc).character + lenUtf16 c⟩ := by
        rw [hstep]
        cases enc with
        | Utf8 =>
          have h1 : lenUtf16 c = 1 := (hbmp rfl) c hmemsl
          rw [h1]
        | Utf16 => rfl
      rw [← hstep2, harith]
      exact ih (n + 1) (by omega) hbmp2

theorem nlOnly_opsApply :
    ∀ (ops : List Operation) (old : List Char), nlOnly old →
      (∀ op ∈ ops, nlOnly op.insertText) → nlOnly (opsApply ops old) := by
  intro ops
  induction ops with
  | nil =>
    intro old h _
    simpa [opsApply] using h
  | cons op rest ih =>
    intro old h hins
    have hrest : ∀ op ∈ rest, nlOnly op.insertText :=
      fun op hop => hins op (List.mem_cons_of_mem _ hop)
    cases op with
    | retain n =>
      exact nlOnly_append (nlOnly_mono (List.take_subset _ _) h)
        (ih _ (nlOnly_mono (List.drop_subset _ _) h) hrest)
    | delete n =>
      exact ih _ (nlOnly_mono (List.drop_subset _ _) h) hrest
    | insert s =>
      exact nlOnly_append (hins (.insert s) (List.mem_cons_self _ _))
        (ih _ h hrest)

theorem mixed_take (new old : List Char) (o n : Nat) (hn : n ≤ new.length) :
    (new.take n ++ old.drop o).take n = new.take n := by
  rw [List.take_append_of_le_length (by rw [List.length_take]; omega)]
  rw [List.take_take, Nat.min_self]

theorem mixed_drop (new old : List Char) (o n : Nat) (hn : n ≤ new.length) :
    (new.take n ++ old.drop o).drop n = old.drop o := by
  rw [List.drop_append_of_le_length (by rw [List.length_take]; omega)]
  rw [List.drop_of_length_le (by rw [List.length_take]; omega), List.nil_append]

theorem mixed_length (new old : List Char) (o n : Nat) (hn : n ≤ new.length) :
    (new.take n ++ old.drop o).length = n + (old.length - o) := by
  rw [List.length_append, List.length_take, List.length_drop]
  omega

/-- Applying one emitted span event (a delete, a combined replace, or - with
`i = 0` - a pure insertion) to the intermediate document
`new.take n ++ old.drop o` replaces the old-document span `[o, o+i)` by the
event's text. -/
theorem apply_span_event (old new : List Char) (enc : OffsetEncoding)
    (hnlo : nlOnly old) (hnln : nlOnly new)
    (hbmp : enc = .Utf8 → allBMP old) (o n i : Nat)
    (hoi : o + i ≤ old.length) (hn : n ≤ new.length) (htext : List Char) :
    applyEvent enc (new.take n ++ old.drop o)
      ⟨some (pos_to_lsp_pos new n enc,
          traverse (pos_to_lsp_pos new n enc) (listSlice old o (o + i))),
        htext, none⟩
      = some (new.take n ++ htext ++ old.drop (o + i)) := by
  set D := new.take n ++ old.drop o with hD
  have hnlD : nlOnly D := nlOnly_append (nlOnly_mono (List.take_subset _ _) hnln)
    (nlOnly_mono (List.drop_subset _ _) hnlo)
  have hDlen : D.length = n + (old.length - o) := mixed_length new old o n hn
  have hDtake : D.take n = new.take n := mixed_take new old o n hn
  have hDdrop : D.drop n = old.drop o := mixed_drop new old o n hn
  have hnD : n ≤ D.length := by omega
  have hniD : n + i ≤ D.length := by omega
  have hstart : pos_to_lsp_pos new n enc = pos_to_lsp_pos D n enc :=
    pos_to_lsp_pos_prefix_eq hDtake.symm hnln hnlD hn hnD enc
  have hslice : listSlice old o (o + i) = listSlice D n (n + i) := by
    unfold listSlice
    rw [hDdrop, Nat.add_sub_cancel_left, Nat.add_sub_cancel_left]
  have hbmpD : enc = .Utf8 → allBMP (listSlice D n (n + i)) := by
    intro he
    intro x hx
    refine hbmp he x ?_
    rw [← hslice] at hx
    exact List.drop_subset _ _ (List.take_subset _ _ hx)
  have htrav : traverse (pos_to_lsp_pos D n enc) (listSlice D n (n + i))
      = pos_to_lsp_pos D (n + i) enc :=
    traverse_slice hnlD enc i n hniD hbmpD
  have hdec1 : lsp_pos_to_pos D (pos_to_lsp_pos D n enc) enc = some n :=
    pos_roundtrip D n enc hnD
  have hdec2 : lsp_pos_to_pos D (pos_to_lsp_pos D (n + i) enc) enc = some (n + i) :=
    pos_roundtrip D (n + i) enc hniD
  have hDdrop2 : D.drop (n + i) = old.drop (o + i) := by
    rw [← List.drop_drop, hDdrop, List.drop_drop]
  rw [hstart, hslice, htrav]
  have happly : applyEvent enc D
      ⟨some (pos_to_lsp_pos D n enc, pos_to_lsp_pos D (n + i) enc), htext, none⟩
      = some (D.take n ++ htext ++ D.drop (n + i)) := by
    simp only [applyEvent, hdec1, hdec2]
  rw [happly, hDtake, hDdrop2]

theorem applyEvents_nil (enc : OffsetEncoding) (doc : List Char) :
    applyEvents enc doc [] = some doc := rfl

theorem applyEvents_cons (enc : OffsetEncoding) (doc : List Char)
    (ev : TextDocumentContentChangeEvent)
    (evs : List TextDocumentContentChangeEvent) :
    applyEvents enc doc (ev :: evs)
      = match applyEvent enc doc ev with
        | some doc2 => applyEvents enc doc2 evs
        | none => none := rfl

theorem drop_eq_append_le {new piece X : List Char} {n : Nat}
    (hn : n ≤ new.length) (happ : new.drop n = piece ++ X) :
    n + piece.length ≤ new.length := by
  have hl := congrArg List.length happ
  rw [List.length_drop, List.length_append] at hl
  omega

theorem reshape_prefix_eq {new piece X : List Char} {n : Nat}
    (happ : new.drop n = piece ++ X) :
    new.take (n + piece.length) = new.take n ++ piece
    ∧ new.drop (n + piece.length) = X := by
  constructor
  · rw [List.take_add, happ, List.take_left]
  · rw [← List.drop_drop, happ, List.drop_left]

/-- The step of the reconstruction argument for a lone `Insert` (not
directly followed by a `Delete`). -/
theorem insert_plain_case (old new : List Char) (enc : OffsetEncoding)
    (hnlo : nlOnly old) (hnln : nlOnly new)
    (hbmp : enc = .Utf8 → allBMP old)
    (s : List Char) (rest : List Operation)
    (hne : ∀ (len : Nat) (ops2 : List Operation),
        rest = Operation.delete len :: ops2 → False)
    (o n : Nat) (ho : o ≤ old.length) (hn : n ≤ new.length)
    (hsum : sumLen (.insert s :: rest) = old.length - o)
    (happ : new.drop n = opsApply (.insert s :: rest) (old.drop o))
    (IH : ∀ (o2 n2 : Nat), o2 ≤ old.length → n2 ≤ new.length →
        sumLen rest = old.length - o2 →
        new.drop n2 = opsApply rest (old.drop o2) →
        applyEvents enc (new.take n2 ++ old.drop o2)
            (changesetLoop old new enc rest o2 n2).changes = some new) :
    applyEvents enc (new.take n ++ old.drop o)
        (changesetLoop old new enc (.insert s :: rest) o n).changes
      = some new := by
  rw [changesetLoop.eq_5 old new enc o n s rest hne]
  simp only [opsApply] at happ
  simp only [sumLen] at hsum
  have hnew : n + s.length ≤ new.length := drop_eq_append_le hn happ
  have hresh := reshape_prefix_eq happ
  have hslice0 : listSlice old o (o + 0) = [] := by
    simp [listSlice]
  have hev := apply_span_event old new enc hnlo hnln hbmp o n 0 (by omega) hn s
  rw [hslice0, Nat.add_zero] at hev
  have hev2 : applyEvent enc (new.take n ++ old.drop o)
      ⟨some (pos_to_lsp_pos new n enc, pos_to_lsp_pos new n enc), s, none⟩
      = some (new.take n ++ s ++ old.drop o) := by
    rw [← hev]
    rfl
  simp only [applyEvents_cons, hev2]
  have hfix : new.take n ++ s = new.take (n + s.length) := hresh.1.symm
  have hgoal : new.take n ++ s ++ old.drop o
      = new.take (n + s.length) ++ old.drop o := by rw [hfix]
  rw [hgoal]
  exact IH o (n + s.length) ho hnew (by omega) hresh.2

/-- Main reconstruction invariant: from cursors `(o, n)` whose intermediate
document is `new.take n ++ old.drop o`, applying the remaining emitted
events yields the new document. -/
theorem reconstruct_aux (old new : List Char) (enc : OffsetEncoding)
    (hnlo : nlOnly old) (hnln : nlOnly new)
    (hbmp : enc = .Utf8 → allBMP old) :
    ∀ (k : Nat) (ops : List Operation), ops.length ≤ k →
      ∀ (o n : Nat), o ≤ old.length → n ≤ new.length →
        sumLen ops = old.length - o →
        new.drop n = opsApply ops (old.drop o) →
        applyEvents enc (new.take n ++ old.drop o)
            (changesetLoop old new enc ops o n).changes
          = some new := by
  intro k
  induction k with
  | zero =>
    intro ops hk o n ho hn hsum happ
    have hnil : ops = [] := List.length_eq_zero.mp (Nat.le_zero.mp hk)
    subst hnil
    simp only [changesetLoop]
    simp only [opsApply] at happ
    have hDnew : new.take n ++ old.drop o = new := by
      rw [← happ, List.take_append_drop]
    rw [hDnew, applyEvents_nil]
  | succ k ih =>
    intro ops hk o n ho hn hsum happ
    cases ops with
    | nil =>
      simp only [changesetLoop]
      simp only [opsApply] at happ
      have hDnew : new.take n ++ old.drop o = new := by
        rw [← happ, List.take_append_drop]
      rw [hDnew, applyEvents_nil]
    | cons op rest =>
      have hk2 : rest.length ≤ k := by
        simp only [List.length_cons] at hk; omega
      cases op with
      | retain i =>
        simp only [changesetLoop]
        simp only [sumLen] at hsum
        simp only [opsApply] at happ
        rw [List.drop_drop] at happ
        have hi : i ≤ old.length - o := by omega
        have hpl : ((List.drop o old).take i).length = i := by
          rw [List.length_take, List.length_drop]; omega
        have hbound := drop_eq_append_le hn happ
        rw [hpl] at hbound
        have hresh := reshape_prefix_eq happ
        rw [hpl] at hresh
        have hsplitold : List.drop o old
            = (List.drop o old).take i ++ List.drop (o + i) old := by
          conv_lhs => rw [← List.take_append_drop i (List.drop o old)]
          rw [List.drop_drop]
        have hD : new.take n ++ List.drop o old
            = new.take (n + i) ++ List.drop (o + i) old := by
          rw [hsplitold, ← List.append_assoc, ← hresh.1]
        rw [hD]
        exact ih rest hk2 (o + i) (n + i) (by omega) hbound (by omega) hresh.2
      | delete i =>
        simp only [changesetLoop]
        simp only [sumLen] at hsum
        simp only [opsApply] at happ
        rw [List.drop_drop] at happ
        have hi : i ≤ old.length - o := by omega
        have hev := apply_span_event old new enc hnlo hnln hbmp o n i
          (by omega) hn []
        simp only [applyEvents_cons, hev]
        rw [List.append_nil]
        exact ih rest hk2 (o + i) n (by omega) hn (by omega) happ
      | insert s =>
        have hIH : ∀ (o2 n2 : Nat), o2 ≤ old.length → n2 ≤ new.length →
            sumLen rest = old.length - o2 →
            new.drop n2 = opsApply rest (old.drop o2) →
            applyEvents enc (new.take n2 ++ old.drop o2)
                (changesetLoop old new enc rest o2 n2).changes = some new :=
          fun o2 n2 a b c d => ih rest hk2 o2 n2 a b c d
        cases rest with
        | nil =>
          exact insert_plain_case old new enc hnlo hnln hbmp s [] 
            (fun len ops2 h => List.noConfusion h) o n ho hn hsum happ hIH
        | cons op2 ops2 =>
          cases op2 with
          | retain j =>
            exact insert_plain_case old new enc hnlo hnln hbmp s
              (.retain j :: ops2) (fun len ops3 h => by simp at h)
              o n ho hn hsum happ hIH
          | insert t =>
            exact insert_plain_case old new enc hnlo hnln hbmp s
              (.insert t :: ops2) (fun len ops3 h => by simp at h)
              o n ho hn hsum happ hIH
          | delete len =>
            simp only [changesetLoop]
            simp only [sumLen] at hsum
            simp only [opsApply] at happ
            rw [List.drop_drop] at happ
            have hlen2 : len ≤ old.length - o := by omega
            have hbound := drop_eq_append_le hn happ
            have hresh := reshape_prefix_eq happ
            have hev := apply_span_event old new enc hnlo hnln hbmp o n len
              (by omega) hn s
            simp only [applyEvents_cons, hev]
            have hfix : new.take n ++ s = new.take (n + s.length) :=
              hresh.1.symm
            rw [hfix]
            have hk3 : ops2.length ≤ k := by
              simp only [List.length_cons] at hk; omega
            exact ih ops2 hk3 (o + len) (n + s.length) (by omega) hbound
              (by omega) hresh.2

/-- The translator's final `old_pos` is its start value plus all Retain and
Delete lengths. -/
theorem changesetLoop_old_pos (old new : List Char) (enc : OffsetEncoding) :
    ∀ (k : Nat) (ops : List Operation), ops.length ≤ k → ∀ (o n : Nat),
      (changesetLoop old new enc ops o n).old_pos = o + sumLen ops := by
  intro k
  induction k with
  | zero =>
    intro ops hk o n
    have hnil : ops = [] := List.length_eq_zero.mp (Nat.le_zero.mp hk)
    subst hnil
    simp [changesetLoop, sumLen]
  | succ k ih =>
    intro ops hk o n
    cases ops with
    | nil => simp [changesetLoop, sumLen]
    | cons op rest =>
      have hk2 : rest.length ≤ k := by
        simp only [List.length_cons] at hk; omega
      cases op with
      | retain i =>
        show (changesetLoop old new enc rest (o + i) (n + i)).old_pos
            = o + sumLen (.retain i :: rest)
        rw [ih rest hk2]
        simp only [sumLen]
        omega
      | delete i =>
        show (changesetLoop old new enc rest (o + i) n).old_pos
            = o + sumLen (.delete i :: rest)
        rw [ih rest hk2]
        simp only [sumLen]
        omega
      | insert s =>
        cases rest with
        | nil =>
          show (changesetLoop old new enc [] o (n + s.length)).old_pos
              = o + sumLen (.insert s :: [])
          rw [ih [] (by omega)]
          simp only [sumLen]
        | cons op2 ops2 =>
          cases op2 with
          | retain j =>
            show (changesetLoop old new enc (.retain j :: ops2) o
                (n + s.length)).old_pos
              = o + sumLen (.insert s :: .retain j :: ops2)
            rw [ih (.retain j :: ops2) hk2]
            simp only [sumLen]
          | insert t =>
            show (changesetLoop old new enc (.insert t :: ops2) o
                (n + s.length)).old_pos
              = o + sumLen (.insert s :: .insert t :: ops2)
            rw [ih (.insert t :: ops2) hk2]
            simp only [sumLen]
          | delete len =>
            show (changesetLoop old new enc ops2 (o + len)
                (n + s.length)).old_pos
              = o + sumLen (.insert s :: .delete len :: ops2)
            rw [ih ops2 (by simp only [List.length_cons] at hk; omega)]
            simp only [sumLen]
            omega

/-! ## Progress Table lemmas -/

theorem alistGet_alistInsert {α β : Type} [DecidableEq α]
    (l : List (α × β)) (k : α) (v : β) :
    alistGet (alistInsert l k v).1 k = some v := by
  induction l with
  | nil => simp [alistInsert, alistGet]
  | cons p rest ih =>
    obtain ⟨k2, v2⟩ := p
    by_cases h : k = k2
    · subst h
      simp [alistInsert, alistGet]
    · simp [alistInsert, alistGet, h, ih]

theorem alistRemove_snd {α β : Type} [DecidableEq α]
    (l : List (α × β)) (k : α) :
    (alistRemove l k).2 = alistGet l k := by
  induction l with
  | nil => simp [alistRemove, alistGet]
  | cons p rest ih =>
    obtain ⟨k2, v2⟩ := p
    by_cases h : k = k2
    · subst h
      simp [alistRemove, alistGet]
    · simp [alistRemove, alistGet, h, ih]

theorem inner_setInner (m : LspProgressMap) (id : Nat)
    (values : List (ProgressToken × ProgressStatus)) :
    (m.setInner id values).inner id = some values := by
  unfold LspProgressMap.setInner LspProgressMap.inner
  exact alistGet_alistInsert m.toMap id values

/-! ## Offset Codec out-of-range characterization -/

theorem lenLines_pos (doc : List Char) : 1 ≤ lenLines doc :=
  Nat.le_add_left 1 _

/-! ## traverse over break-free text -/

theorem utf16Len_ge_length (t : List Char) : t.length ≤ utf16Len t := by
  induction t with
  | nil => simp [utf16Len]
  | cons c rest ih =>
    rw [utf16Len_cons, List.length_cons]
    have := lenUtf16_pos c
    omega

theorem utf16Len_gt_length {t : List Char} (h : ∃ c ∈ t, lenUtf16 c = 2) :
    t.length < utf16Len t := by
  induction t with
  | nil => simp at h
  | cons c rest ih =>
    rw [utf16Len_cons, List.length_cons]
    rcases h with ⟨x, hx, h2⟩
    rcases List.mem_cons.mp hx with hh | ht
    · subst hh
      have := utf16Len_ge_length rest
      omega
    · have := ih ⟨x, ht, h2⟩
      have := lenUtf16_pos c
      omega

theorem traverse_break_free :
    ∀ (t : List Char) (pos : LspPosition), (∀ c ∈ t, isBreakChar c = false) →
      traverse pos t = ⟨pos.line, pos.character + utf16Len t⟩ := by
  intro t
  induction t with
  | nil =>
    intro pos _
    show pos = ⟨pos.line, pos.character + utf16Len []⟩
    simp [utf16Len]
  | cons c rest ih =>
    intro pos hnb
    have hcb : isBreakChar c = false := hnb c (List.mem_cons_self _ _)
    have hnl : c ≠ '\n' := by
      intro he; subst he; exact absurd hcb (by decide)
    have hcr : c ≠ '\r' := by
      intro he; subst he; exact absurd hcb (by decide)
    rw [traverse_cons_other pos rest hnl hcr]
    rw [ih _ (fun x hx => hnb x (List.mem_cons_of_mem _ hx))]
    rw [utf16Len_cons]
    show LspPosition.mk pos.line (pos.character + lenUtf16 c + utf16Len rest)
        = ⟨pos.line, pos.character + (lenUtf16 c + utf16Len rest)⟩
    rw [Nat.add_assoc]

/-! ## Claim theorems -/

/-- C1 (counterexample): for old document `"a𐐀b"` (where `𐐀` is the
supplementary-plane character U+10400), operations
`[Retain 1, Delete 1, Retain 1]` (whose Retain and Delete lengths sum to
the old length 3) and the Utf8 encoding, applying the Change Translator's
output events to the old document does not reconstruct the implied new
document `"ab"`: `traverse` advanced the event's end column by two UTF-16
units for the one deleted character, so the decoded range also swallows
`'b'`. -/
theorem changeset_reconstruction_fails_utf8_supplementary :
    sumLen [Operation.retain 1, Operation.delete 1, Operation.retain 1]
      = (['a', Char.ofNat 0x10400, 'b'] : List Char).length
    ∧ opsApply [Operation.retain 1, Operation.delete 1, Operation.retain 1]
        ['a', Char.ofNat 0x10400, 'b'] = ['a', 'b']
    ∧ applyEvents .Utf8 ['a', Char.ofNat 0x10400, 'b']
        (changeset_to_changes ['a', Char.ofNat 0x10400, 'b'] ['a', 'b']
          [Operation.retain 1, Operation.delete 1, Operation.retain 1] .Utf8)
      ≠ some ['a', 'b'] := by decide

/-- C1 (amended): for every edit-operation list whose Retain and Delete
lengths sum to the old document's total length, provided the old document
and every inserted text use `'\n'` as their only line-break character and
- under the Utf8 encoding - the old document contains only Basic
Multilingual Plane characters, applying the Change Translator's output
events in order to the old document reconstructs exactly the new document
implied by the operation list; and (unconditionally on the character
hypotheses) the translator's final old-document cursor equals the old
document's total length. -/
theorem changeset_to_changes_reconstructs (old : List Char)
    (ops : List Operation) (enc : OffsetEncoding)
    (hsum : sumLen ops = old.length)
    (hnlo : nlOnly old)
    (hins : ∀ op ∈ ops, nlOnly op.insertText)
    (hbmp : enc = .Utf8 → allBMP old) :
    applyEvents enc old
        (changeset_to_changes old (opsApply ops old) ops enc)
      = some (opsApply ops old)
    ∧ (changesetLoop old (opsApply ops old) enc ops 0 0).old_pos
        = old.length := by
  have hnln : nlOnly (opsApply ops old) := nlOnly_opsApply ops old hnlo hins
  constructor
  · exact reconstruct_aux old (opsApply ops old) enc hnlo hnln hbmp
      ops.length ops (Nat.le_refl _) 0 0 (Nat.zero_le _) (Nat.zero_le _)
      (by omega) rfl
  · have h := changesetLoop_old_pos old (opsApply ops old) enc ops.length ops
      (Nat.le_refl _) 0 0
    omega

/-- C1 (witness): the amended reconstruction theorem applied to old
document `"abc"` with operations `[Retain 1, Insert "x", Delete 1,
Retain 1]` under Utf8. -/
theorem changeset_to_changes_reconstructs_witness :
    sumLen [Operation.retain 1, Operation.insert ['x'], Operation.delete 1,
        Operation.retain 1]
      = (['a','b','c'] : List Char).length
    ∧ applyEvents .Utf8 ['a','b','c']
        (changeset_to_changes ['a','b','c']
          (opsApply [Operation.retain 1, Operation.insert ['x'],
            Operation.delete 1, Operation.retain 1] ['a','b','c'])
          [Operation.retain 1, Operation.insert ['x'], Operation.delete 1,
            Operation.retain 1] .Utf8)
      = some (opsApply [Operation.retain 1, Operation.insert ['x'],
          Operation.delete 1, Operation.retain 1] ['a','b','c']) :=
  ⟨by decide,
    (changeset_to_changes_reconstructs ['a','b','c']
      [Operation.retain 1, Operation.insert ['x'], Operation.delete 1,
        Operation.retain 1] .Utf8
      (by decide) (by decide) (by decide) (fun _ => by decide)).1⟩

/-- C2: for every document, every in-bounds internal character offset `o`
and each encoding, converting `o` to a protocol position and back is the
identity: `lsp_pos_to_pos doc (pos_to_lsp_pos doc o enc) enc = some o`. -/
theorem lsp_roundtrip (doc : List Char) (o : Nat) (enc : OffsetEncoding)
    (h : o ≤ doc.length) :
    lsp_pos_to_pos doc (pos_to_lsp_pos doc o enc) enc = some o :=
  pos_roundtrip doc o enc h

/-- C2 (witness): the round trip at offset 2 of `"a\nb"` under Utf16 and at
offset 3 under Utf8. -/
theorem lsp_roundtrip_witness :
    (2 ≤ (['a','\n','b'] : List Char).length
      ∧ lsp_pos_to_pos ['a','\n','b']
          (pos_to_lsp_pos ['a','\n','b'] 2 .Utf16) .Utf16 = some 2)
    ∧ lsp_pos_to_pos ['a','\n','b']
        (pos_to_lsp_pos ['a','\n','b'] 3 .Utf8) .Utf8 = some 3 :=
  ⟨⟨by decide, lsp_roundtrip ['a','\n','b'] 2 .Utf16 (by decide)⟩,
    lsp_roundtrip ['a','\n','b'] 3 .Utf8 (by decide)⟩

/-- C3 (counterexample): in `"ab\ncd"`, line 0 has length 3, yet protocol
position (0, 4) - whose character exceeds that line's length - is resolved
to `some 4` (an offset on line 1) instead of `none`, under both
encodings. -/
theorem lsp_pos_to_pos_overlong_column_resolves :
    lineLenChars ['a','b','\n','c','d'] 0 = 3
    ∧ lsp_pos_to_pos ['a','b','\n','c','d'] ⟨0, 4⟩ .Utf8 = some 4
    ∧ lsp_pos_to_pos ['a','b','\n','c','d'] ⟨0, 4⟩ .Utf16 = some 4 := by
  decide

/-- C3 (amended): `lsp_pos_to_pos` returns `none` exactly when the line
exceeds the document or when the line start plus the character offset (in
the encoding's units) exceeds the length of the whole document (in those
units) - not of the line; and it never clamps: any returned offset is
exactly the line start plus the character (converted from UTF-16 units
under Utf16). -/
theorem lsp_pos_to_pos_none_iff (doc : List Char) (p : LspPosition)
    (enc : OffsetEncoding) :
    (lsp_pos_to_pos doc p enc = none
      ↔ lenLines doc ≤ p.line
        ∨ (match enc with
           | .Utf8 => doc.length < lineToChar doc p.line + p.character
           | .Utf16 => charToUtf16Cu doc doc.length
               < charToUtf16Cu doc (lineToChar doc p.line) + p.character))
    ∧ (lsp_pos_to_pos doc p enc = none
      ∨ lsp_pos_to_pos doc p enc
          = some (match enc with
            | .Utf8 => lineToChar doc p.line + p.character
            | .Utf16 => utf16CuToChar doc
                (charToUtf16Cu doc (lineToChar doc p.line) + p.character))) := by
  have hll : 1 ≤ lenLines doc := lenLines_pos doc
  cases enc with
  | Utf8 =>
    simp only [lsp_pos_to_pos]
    rw [maxChar_eq doc]
    by_cases h1 : p.line > lenLines doc - 1
    · rw [if_pos h1]
      refine ⟨⟨fun _ => Or.inl (by omega), fun _ => rfl⟩, Or.inl rfl⟩
    · rw [if_neg h1]
      by_cases h2 : lineToChar doc p.line + p.character ≤ doc.length
      · rw [if_pos h2]
        refine ⟨⟨fun hc => absurd hc (by simp), fun hd => ?_⟩, Or.inr rfl⟩
        exfalso
        rcases hd with hd | hd <;> omega
      · rw [if_neg h2]
        exact ⟨⟨fun _ => Or.inr (by omega), fun _ => rfl⟩, Or.inl rfl⟩
  | Utf16 =>
    simp only [lsp_pos_to_pos]
    rw [maxChar_eq doc]
    by_cases h1 : p.line > lenLines doc - 1
    · rw [if_pos h1]
      refine ⟨⟨fun _ => Or.inl (by omega), fun _ => rfl⟩, Or.inl rfl⟩
    · rw [if_neg h1]
      by_cases h2 : charToUtf16Cu doc (lineToChar doc p.line) + p.character
          ≤ charToUtf16Cu doc doc.length
      · rw [if_pos h2]
        refine ⟨⟨fun hc => absurd hc (by simp), fun hd => ?_⟩, Or.inr rfl⟩
        exfalso
        rcases hd with hd | hd <;> omega
      · rw [if_neg h2]
        exact ⟨⟨fun _ => Or.inr (by omega), fun _ => rfl⟩, Or.inl rfl⟩

/-- C4 (counterexample): with the operations in the order stated by the
claim - `[Retain 1, Delete 1, Insert "x", Retain 1]` - the Change
Translator emits two events (a deletion of columns 1-2 and then an
insertion at column 1), not one combined replace: the translator only
combines an `Insert` directly followed by a `Delete`. -/
theorem scenario_a_as_stated_gives_two_events :
    changeset_to_changes ['a','b','c'] ['a','x','c']
      [Operation.retain 1, Operation.delete 1, Operation.insert ['x'],
        Operation.retain 1] .Utf8
      = [⟨some (⟨0,1⟩, ⟨0,2⟩), [], none⟩, ⟨some (⟨0,1⟩, ⟨0,1⟩), ['x'], none⟩]
    ∧ (changeset_to_changes ['a','b','c'] ['a','x','c']
        [Operation.retain 1, Operation.delete 1, Operation.insert ['x'],
          Operation.retain 1] .Utf8).length ≠ 1 := by
  decide

/-- C4 (amended): for old document `"abc"`, new document `"axc"` and the
operation list `[Retain 1, Insert "x", Delete 1, Retain 1]` (the insert
listed before the delete it replaces), the Change Translator emits exactly
one combined replace event covering the single character `b` (line 0,
protocol columns 1 to 2) with replacement text `"x"`, under both
encodings. -/
theorem scenario_a_combined_replace :
    changeset_to_changes ['a','b','c'] ['a','x','c']
      [Operation.retain 1, Operation.insert ['x'], Operation.delete 1,
        Operation.retain 1] .Utf8
      = [⟨some (⟨0,1⟩, ⟨0,2⟩), ['x'], none⟩]
    ∧ changeset_to_changes ['a','b','c'] ['a','x','c']
      [Operation.retain 1, Operation.insert ['x'], Operation.delete 1,
        Operation.retain 1] .Utf16
      = [⟨some (⟨0,1⟩, ⟨0,2⟩), ['x'], none⟩] := by
  decide

/-- C5: under the Utf8 encoding the Offset Codec's protocol columns are
Unicode character counts, not UTF-8 byte counts: for the document `"éa"`,
offset 1 (after the two-byte character `é`) is converted to column 1,
whereas its UTF-8 byte count is 2.  (The Utf16 branch does produce UTF-16
code-unit counts; for `é` that is 1.) -/
theorem utf8_columns_are_char_counts :
    pos_to_lsp_pos ['é','a'] 1 .Utf8 = ⟨0, 1⟩
    ∧ utf8Len ['é'] = 2
    ∧ pos_to_lsp_pos ['é','a'] 1 .Utf16 = ⟨0, 1⟩
    ∧ utf16Len ['é'] = 1
    ∧ (1 : Nat) ≠ 2 := by
  decide

/-- C6: `text_document_did_change` is fully determined by the capability
set's declared sync kind: `None` (or no declared kind) is a no-op
returning nothing to send, `Full` produces exactly one event carrying the
entire new text with no range, and `Incremental` produces exactly the
Change Translator's events.  There is no fallback between branches. -/
theorem did_change_sync_kind_cases (caps : ServerCapabilities)
    (old_text new_text : List Char) (changes : List Operation)
    (enc : OffsetEncoding) :
    (declaredSyncKind caps = some .None →
      text_document_did_change caps old_text new_text changes enc = none)
    ∧ (declaredSyncKind caps = some .Full →
      text_document_did_change caps old_text new_text changes enc
        = some [⟨none, new_text, none⟩])
    ∧ (declaredSyncKind caps = some .Incremental →
      text_document_did_change caps old_text new_text changes enc
        = some (changeset_to_changes old_text new_text changes enc))
    ∧ (declaredSyncKind caps = none →
      text_document_did_change caps old_text new_text changes enc = none) := by
  obtain ⟨tds⟩ := caps
  rcases tds with _ | cap
  · simp [text_document_did_change, declaredSyncKind]
  · rcases cap with k | opts
    · cases k <;> simp [text_document_did_change, declaredSyncKind]
    · obtain ⟨ch, sv⟩ := opts
      rcases ch with _ | k
      · simp [text_document_did_change, declaredSyncKind]
      · cases k <;> simp [text_document_did_change, declaredSyncKind]

/-- C6 (witness): a capability set declaring `Full` sync yields exactly one
whole-document event. -/
theorem did_change_sync_kind_cases_witness :
    text_document_did_change ⟨some (.Kind .Full)⟩ ['a'] ['b'] [] .Utf8
      = some [⟨none, ['b'], none⟩] :=
  (did_change_sync_kind_cases ⟨some (.Kind .Full)⟩ ['a'] ['b'] [] .Utf8).2.1 rfl

/-- C7: a Connection's offset encoding is initialized to the Utf8 default
at `start` and is fixed for the connection's lifetime: neither installing
the negotiated server capabilities nor any other modelled state change
alters it (this `lsp_types` version's `ServerCapabilities` carries no
encoding field, so negotiation leaves the default in place - "defaults to
Utf8 until told otherwise"). -/
theorem offset_encoding_default_and_fixed :
    (∀ (id : Nat) (config : Option String),
        (Client.start id config).offset_encoding = .Utf8)
    ∧ (∀ (c : Client) (caps : ServerCapabilities),
        (c.set_capabilities caps).offset_encoding = c.offset_encoding)
    ∧ (∀ c : Client, c.next_request_id.2.offset_encoding
        = c.offset_encoding) := by
  refine ⟨fun id config => rfl, fun c caps => ?_, fun c => rfl⟩
  unfold Client.set_capabilities
  cases c.capabilities <;> rfl

/-- C8 (counterexample): when the outbound channel is gone, `force_shutdown`
returns an error and the exit notification is not sent - failure does
propagate outward on that path (the Rust returns `self.exit().await`). -/
theorem force_shutdown_fails_when_channel_closed :
    (force_shutdown ⟨false, []⟩ (.error .Timeout)).1 = .error .Other
    ∧ OutMsg.exitNotification
        ∉ (force_shutdown ⟨false, []⟩ (.error .Timeout)).2.sent := by
  decide

/-- C8 (amended): `force_shutdown` swallows the graceful-shutdown outcome
completely (its result is independent of the shutdown request's outcome,
which is only logged), and whenever the outbound channel is still
connected it sends the exit notification after the shutdown request and
returns success even when the shutdown request failed; only a dead
outbound channel makes the call itself fail. -/
theorem force_shutdown_swallows_shutdown_failure :
    (∀ (tx : ServerTx) (r1 r2 : Except Error Unit),
        force_shutdown tx r1 = force_shutdown tx r2)
    ∧ (∀ (tx : ServerTx) (r : Except Error Unit), tx.connected = true →
        (force_shutdown tx r).1 = .ok ()
        ∧ (force_shutdown tx r).2.sent
            = tx.sent ++ [OutMsg.shutdownRequest, OutMsg.exitNotification]) := by
  constructor
  · intro tx r1 r2; rfl
  · intro tx r hconn
    obtain ⟨conn, sent⟩ := tx
    simp only at hconn
    subst hconn
    constructor
    · rfl
    · show (sent ++ [OutMsg.shutdownRequest]) ++ [OutMsg.exitNotification]
          = sent ++ [OutMsg.shutdownRequest, OutMsg.exitNotification]
      rw [List.append_assoc]
      rfl

/-- C8 (witness): on a live channel a failed shutdown request still yields
success and both messages sent. -/
theorem force_shutdown_swallows_shutdown_failure_witness :
    (force_shutdown ⟨true, []⟩ (.error .Timeout)).1 = .ok ()
    ∧ (force_shutdown ⟨true, []⟩ (.error .Timeout)).2.sent
        = [OutMsg.shutdownRequest, OutMsg.exitNotification] :=
  ⟨(force_shutdown_swallows_shutdown_failure.2 ⟨true, []⟩
      (.error .Timeout) rfl).1,
    (force_shutdown_swallows_shutdown_failure.2 ⟨true, []⟩
      (.error .Timeout) rfl).2⟩

/-- C9: in the Progress Table, for every map state, connection id and
token, `create` followed by `update` followed by `end_progress` returns
the last `Started` value, not `Created`; and `end_progress` on an
untracked token returns none. -/
theorem progress_create_update_end (m : LspProgressMap) (id : Nat)
    (token : ProgressToken) (status : WorkDoneProgress) :
    (((m.create id token).update id token status).1.end_progress id token).2
      = some (.Started status)
    ∧ (m.progress id token = none → (m.end_progress id token).2 = none) := by
  constructor
  · simp only [LspProgressMap.create, LspProgressMap.update,
      LspProgressMap.end_progress, inner_setInner, Option.getD_some]
    rw [alistRemove_snd, alistGet_alistInsert]
  · intro hp
    unfold LspProgressMap.end_progress
    unfold LspProgressMap.progress at hp
    cases hm : m.inner id with
    | none => rfl
    | some values =>
      rw [hm] at hp
      simp only [Option.some_bind] at hp
      show (alistRemove values token).2 = none
      rw [alistRemove_snd, hp]

/-- C9 (witness): the sequence on the empty table at id 3, token 7 returns
the `Started` payload; `end_progress` at an untracked id/token returns
none. -/
theorem progress_create_update_end_witness :
    ((((LspProgressMap.new.create 3 (.Number 7)).update 3 (.Number 7)
        (.Begin "t")).1).end_progress 3 (.Number 7)).2
      = some (.Started (.Begin "t"))
    ∧ (LspProgressMap.new.end_progress 4 (.Str "x")).2 = none :=
  ⟨(progress_create_update_end LspProgressMap.new 3 (.Number 7)
      (.Begin "t")).1,
    (progress_create_update_end LspProgressMap.new 4 (.Str "x")
      (.Begin "t")).2 (by decide)⟩

/-- C10 (counterexample): for the document `"éab"` with the non-ASCII (but
Basic Multilingual Plane) character `é` as the deleted span, translating
under the Utf8 encoding yields an event whose end column 1 is exactly the
Utf8-branch (character-count) column of the span's end - start and end
agree in units, and applying the event reconstructs the new document - so
it is not the case that every document with a non-ASCII character in a
deleted span yields differing units. -/
theorem nonascii_bmp_delete_consistent_utf8 :
    changeset_to_changes ['é','a','b'] ['a','b']
      [Operation.delete 1, Operation.retain 2] .Utf8
      = [⟨some (⟨0,0⟩, ⟨0,1⟩), [], none⟩]
    ∧ pos_to_lsp_pos ['é','a','b'] 1 .Utf8 = ⟨0,1⟩
    ∧ applyEvents .Utf8 ['é','a','b']
        (changeset_to_changes ['é','a','b'] ['a','b']
          [Operation.delete 1, Operation.retain 2] .Utf8)
      = some ['a','b'] := by
  decide

/-- C10 (amended): `traverse` - which computes every delete/replace event's
end position - advances columns in UTF-16 code units per character with no
dependence on the negotiated encoding (it takes none): over a break-free
text it adds exactly the text's UTF-16 length to the column.  That column
displacement always bounds the character count (the unit of the code's
Utf8-branch start columns) and strictly exceeds it exactly when the text
contains a character outside the Basic Multilingual Plane, so only then do
a Utf8 start and a traversed end disagree in units. -/
theorem traverse_utf16_units (pos : LspPosition) (t : List Char)
    (hnb : ∀ c ∈ t, isBreakChar c = false) :
    traverse pos t = ⟨pos.line, pos.character + utf16Len t⟩
    ∧ pos.character + t.length ≤ (traverse pos t).character
    ∧ ((∃ c ∈ t, lenUtf16 c = 2) →
        pos.character + t.length < (traverse pos t).character) := by
  have hbf := traverse_break_free t pos hnb
  refine ⟨hbf, ?_, ?_⟩
  · rw [hbf]
    have := utf16Len_ge_length t
    simp only
    omega
  · intro hex
    rw [hbf]
    have := utf16Len_gt_length hex
    simp only
    omega

/-- C10 (witness): over the break-free text `"a𐐀"` (with the
supplementary-plane character U+10400), `traverse` from column 0 adds the
UTF-16 length 3, strictly exceeding the character count 2. -/
theorem traverse_utf16_units_witness :
    traverse ⟨0, 0⟩ ['a', Char.ofNat 0x10400]
      = ⟨0, 0 + utf16Len ['a', Char.ofNat 0x10400]⟩
    ∧ 0 + (['a', Char.ofNat 0x10400] : List Char).length
        < (traverse ⟨0, 0⟩ ['a', Char.ofNat 0x10400]).character :=
  ⟨(traverse_utf16_units ⟨0, 0⟩ ['a', Char.ofNat 0x10400] (by decide)).1,
    (traverse_utf16_units ⟨0, 0⟩ ['a', Char.ofNat 0x10400]
      (by decide)).2.2 (by decide)⟩
